import Mathlib

/-!
Verification of the data-migration core (src/data_migration.py) against its
natural-language specification.

The development shallowly embeds the pure logic of the Python module:
  - the fnmatch-style glob matcher used by should_copy (Python fnmatch.fnmatch
    on a POSIX platform, where os.path.normcase is the identity): a pattern is
    first translated to a token list (mirroring fnmatch.translate: a star
    matches any run of characters including path separators, a question mark
    matches one character, and bracket character classes with optional leading
    negation and ranges), then matched against the whole string;
  - rstrip of trailing slashes, the per-rule match logic and the
    last-match-wins decision fold of should_copy;
  - the placeholder expander _expand_placeholders (a left-to-right scan
    equivalent to the regex substitution with pattern dollar-brace,
    one-or-more non-closing-brace characters, closing brace);
  - the line pipeline of parse_rules (BOM strip at file start, full-line
    comments, end-of-line comments, trimming, exclude marker, placeholder
    expansion, backslash normalization);
  - scan_files over explicit walk data (directory relative path and the file
    names it contains, as produced by os.walk);
  - the run driver as a pure function from an environment (existence of the
    source root, rule-file content, walk data, per-file copy success, and the
    value of the cooperative is_running flag at each top-of-loop check) to the
    emitted event trace and the list of attempted copies; and its
    exception-extended variant runX, which additionally injects an exception
    at each uncaught raise site of the try-block (a rule-file read error
    inside parse_rules, a failure inside scan_files, a failure of the
    progress emission of a copy iteration) so that the outer except handler
    is modelled on every path; runX with no injected exception provably
    coincides with run.

Modelling notes, recorded once here:
  - Python str.isspace and str.strip recognise all Unicode whitespace; the
    model uses the six ASCII whitespace characters, which covers every input
    appearing in the rule-file format.
  - Python computes the progress percentage as int truncation of the float
    copied_count / total_files * 100; the model uses exact arithmetic
    (copied * 100 / total in Nat, which is the same floor since the value is
    nonnegative); binary floating-point rounding is not modelled.
  - fnmatch.translate compresses consecutive stars into one; this is a
    regex-size optimisation with identical matching semantics and is not
    reproduced.
  - iterating a text file yields lines with their trailing newline; the model
    splits on the newline character instead, which is equivalent because the
    newline is whitespace (removed by trimming) and never precedes a hash
    character inside one line.
-/

/-- ClassItem is one entry of a bracket character class of a glob pattern:
either a single character or an inclusive range, as produced by
fnmatch.translate. -/
inductive ClassItem where
  | single (c : Char)
  | range (lo hi : Char)
deriving DecidableEq, Repr

/-- Tok is one token of a translated glob pattern, mirroring the regex pieces
produced by fnmatch.translate. -/
inductive Tok where
  | star
  | anyOne
  | lit (c : Char)
  | cls (neg : Bool) (items : List ClassItem)
deriving DecidableEq, Repr

/-- findClose scans for the first closing bracket, returning the characters
before it and the characters after it. -/
def findClose : List Char → Option (List Char × List Char)
  | [] => none
  | c :: r =>
    if c = ']' then some ([], r)
    else
      match findClose r with
      | none => none
      | some (a, b) => some (c :: a, b)

/-- scanContent models the closing-bracket search of fnmatch.translate after
the optional negation marker: a closing bracket in first position is literal
class content. -/
def scanContent (l : List Char) : Option (List Char × List Char) :=
  match l with
  | [] => none
  | c :: r =>
    if c = ']' then
      match findClose r with
      | none => none
      | some (a, b) => some (']' :: a, b)
    else findClose (c :: r)

/-- parseBracket parses the body of a glob bracket class after the opening
bracket: an optional leading negation marker, the class content up to the
closing bracket, and the remaining pattern; none when no closing bracket
exists, in which case the opening bracket is a literal character. -/
def parseBracket (s : List Char) : Option (Bool × List Char × List Char) :=
  match s with
  | '!' :: rest =>
    match scanContent rest with
    | none => none
    | some (a, b) => some (true, a, b)
  | l =>
    match scanContent l with
    | none => none
    | some (a, b) => some (false, a, b)

/-- classItems interprets bracket-class content: a character, a dash and a
character form a range; every other character stands for itself (a dash in
first or last position is literal, as in fnmatch.translate). -/
def classItems : List Char → List ClassItem
  | a :: '-' :: b :: rest => ClassItem.range a b :: classItems rest
  | a :: rest => ClassItem.single a :: classItems rest
  | [] => []

/-- classMatch tests membership of a character in a bracket class. -/
def classMatch (items : List ClassItem) (c : Char) : Bool :=
  items.any fun it =>
    match it with
    | ClassItem.single a => c == a
    | ClassItem.range lo hi => lo ≤ c && c ≤ hi

/-- fnTranslateGo compiles a glob pattern to tokens, mirroring the if/elif
chain of fnmatch.translate: star and question mark are wildcards, an opening
bracket starts a character class when a closing bracket follows, and is a
literal otherwise; every other character is a literal. Each step consumes at
least one character, so the structural fuel never runs out when it starts at
the pattern length; the recurrence theorems below certify this. -/
def fnTranslateGo : Nat → List Char → List Tok
  | _, [] => []
  | 0, _ :: _ => []
  | fuel + 1, c :: ps =>
    if c = '*' then Tok.star :: fnTranslateGo fuel ps
    else if c = '?' then Tok.anyOne :: fnTranslateGo fuel ps
    else if c = '[' then
      match parseBracket ps with
      | some (neg, content, rest) =>
        Tok.cls neg (classItems content) :: fnTranslateGo fuel rest
      | none => Tok.lit '[' :: fnTranslateGo fuel ps
    else Tok.lit c :: fnTranslateGo fuel ps

/-- fnTranslate runs the pattern compiler with fuel equal to the pattern
length, which the fuel-irrelevance theorem below shows is always enough. -/
def fnTranslate (l : List Char) : List Tok :=
  fnTranslateGo l.length l

/-- tokMatch matches a translated pattern against a whole string: the regex
produced by fnmatch.translate is anchored at both ends, and its star matches
any character run, path separators included, so a star token succeeds exactly
when the remaining tokens match some suffix of the string. -/
def tokMatch : List Tok → List Char → Bool
  | [], s => s.isEmpty
  | Tok.star :: ts, s =>
    (List.range (s.length + 1)).any fun k => tokMatch ts (s.drop k)
  | Tok.anyOne :: ts, s =>
    (match s with
     | [] => false
     | _ :: s2 => tokMatch ts s2)
  | Tok.lit c :: ts, s =>
    (match s with
     | [] => false
     | c2 :: s2 => c2 == c && tokMatch ts s2)
  | Tok.cls neg items :: ts, s =>
    (match s with
     | [] => false
     | c2 :: s2 => (classMatch items c2 != neg) && tokMatch ts s2)

/-- fnmatch models Python fnmatch.fnmatch(name, pat) on a platform where
os.path.normcase is the identity: the translated pattern must match the whole
name. -/
def fnmatch (name pat : String) : Bool :=
  tokMatch (fnTranslate pat.data) name.data

/-- rstrip_slashes models Python str.rstrip applied with the slash character:
every trailing slash is removed. -/
def rstrip_slashes (s : String) : String :=
  String.mk ((s.data.reverse.dropWhile (fun c => c = '/')).reverse)

/-- endsWithSlash models Python str.endswith applied with a slash: the last
character of the string is a slash. -/
def endsWithSlash (s : String) : Bool :=
  s.data.getLast? == some '/'

/-- ruleMatches is the per-rule match computation inside should_copy: a
pattern ending in a slash is a directory rule and matches when the relative
path glob-matches the cleaned pattern itself or the cleaned pattern followed
by slash-star; any other pattern is a plain file glob. -/
def ruleMatches (rel_path pattern : String) : Bool :=
  if endsWithSlash pattern then
    let clean_pattern := rstrip_slashes pattern
    fnmatch rel_path clean_pattern || fnmatch rel_path (clean_pattern ++ "/*")
  else
    fnmatch rel_path pattern

/-- should_copy folds the ordered rule list over the default decision false:
a matching rule overwrites the decision with the negation of its exclude
flag, a non-matching rule leaves it unchanged. -/
def should_copy (rel_path : String) (rules : List (String × Bool)) : Bool :=
  rules.foldl
    (fun decision rule =>
      if ruleMatches rel_path rule.1 then !rule.2 else decision)
    false

/-- takeToClose scans for the first closing brace, returning the characters
before it and the characters after it; none when no closing brace exists.
This mirrors the regex piece of _PLACEHOLDER_RE: the capture group holds
characters other than a closing brace, up to the closing brace (emptiness of
the capture is checked at the call site, since the regex requires at least one
character). -/
def takeToClose : List Char → Option (List Char × List Char)
  | [] => none
  | c :: r =>
    if c = '\x7d' then some ([], r)
    else
      match takeToClose r with
      | none => none
      | some (a, b) => some (c :: a, b)

/-- ctxLookup is Python dictionary lookup for the placeholder context,
modelled as first match in an association list (the context keys are
distinct). -/
def ctxLookup (ctx : List (String × String)) (key : List Char) : Option String :=
  match ctx with
  | [] => none
  | p :: rest => if p.1.data = key then some p.2 else ctxLookup rest key

/-- expandGo is the placeholder expansion scan of _expand_placeholders: the
regex substitutes every non-overlapping occurrence of a dollar sign, an
opening brace, one or more non-brace characters and a closing brace, replacing
it with the context value when the identifier is a context key and with itself
(leaving it unchanged) otherwise, and scanning resumes after the match.  A
dollar sign not followed by an opening brace, an empty identifier, or a
missing closing brace starts no match there, and scanning resumes at the next
character.  Fuel is structural and each step consumes at least one character;
the fuel-irrelevance theorem below certifies that the initial fuel is
enough. -/
def expandGo : Nat → List (String × String) → List Char → List Char
  | _, _, [] => []
  | 0, _, l => l
  | _ + 1, _, [c] => [c]
  | fuel + 1, ctx, c1 :: c2 :: rest =>
    if c1 = '$' then
      if c2 = '\x7b' then
        match takeToClose rest with
        | some (ident, after) =>
          if ident = [] then '$' :: '\x7b' :: expandGo fuel ctx rest
          else
            match ctxLookup ctx ident with
            | some v => v.data ++ expandGo fuel ctx after
            | none => '$' :: '\x7b' :: (ident ++ '\x7d' :: expandGo fuel ctx after)
        | none => '$' :: '\x7b' :: expandGo fuel ctx rest
      else c1 :: expandGo fuel ctx (c2 :: rest)
    else c1 :: expandGo fuel ctx (c2 :: rest)

/-- expandChars runs the placeholder scan with fuel equal to the text
length, which the fuel-irrelevance theorem below shows is always enough. -/
def expandChars (ctx : List (String × String)) (l : List Char) : List Char :=
  expandGo l.length ctx l

/-- _expand_placeholders expands placeholder tokens in rule-pattern text. -/
def _expand_placeholders (ctx : List (String × String)) (text : String) : String :=
  String.mk (expandChars ctx text.data)

/-- build_placeholder_context models _build_placeholder_context: the four
fixed keys map to the version names (the final path component of each root,
computed by os.path.basename over os.path.normpath, supplied here as data
because it is platform-dependent) and the two root paths verbatim. -/
def build_placeholder_context
    (old_version_name new_version_name from_path to_path : String) :
    List (String × String) :=
  [("OLD_VERSION_NAME", old_version_name),
   ("NEW_VERSION_NAME", new_version_name),
   ("OLD_VERSION_PATH", from_path),
   ("NEW_VERSION_PATH", to_path)]

/-- isPySpace models Python str.isspace on one character for the ASCII
whitespace characters (space, tab, newline, carriage return, vertical tab,
form feed); non-ASCII Unicode whitespace is not modelled. -/
def isPySpace (c : Char) : Bool :=
  c = ' ' || c = '\t' || c = '\n' || c = '\x0d' || c = '\x0b' || c = '\x0c'

/-- lstripChars models str.lstrip with no argument: leading whitespace is
removed. -/
def lstripChars (l : List Char) : List Char :=
  l.dropWhile isPySpace

/-- stripChars models str.strip with no argument: leading and trailing
whitespace is removed. -/
def stripChars (l : List Char) : List Char :=
  ((l.dropWhile isPySpace).reverse.dropWhile isPySpace).reverse

/-- scanEol models the end-of-line comment loop of parse_rules: the line is
truncated just before the first hash character that has a position greater
than zero and is immediately preceded by a whitespace character (the
preceding whitespace character is dropped too); a hash with no whitespace
before it, or in first position, is kept and scanning continues. -/
def scanEol : List Char → List Char
  | p :: '#' :: rest =>
    if isPySpace p then [] else p :: scanEol ('#' :: rest)
  | c :: rest => c :: scanEol rest
  | [] => []

/-- splitOnNL splits file content into lines at newline characters (file
iteration in Python yields lines; the trailing newline each line carries is
whitespace that the pipeline trims, and it never immediately precedes a hash
character, so splitting is equivalent). -/
def splitOnNL : List Char → List (List Char)
  | [] => [[]]
  | c :: rest =>
    if c = '\n' then [] :: splitOnNL rest
    else
      match splitOnNL rest with
      | [] => [[c]]
      | h :: t => (c :: h) :: t

/-- stripBOM strips one byte-order mark at file start only, as the utf-8-sig
codec does. -/
def stripBOM : List Char → List Char
  | '\uFEFF' :: rest => rest
  | l => l

/-- normalizeSlashes models str.replace of backslashes by forward slashes. -/
def normalizeSlashes (l : List Char) : List Char :=
  l.map fun c => if c = '\\' then '/' else c

/-- parseLine is the per-line pipeline of parse_rules: skip a line that is
empty after trimming or whose first non-whitespace character is a hash;
truncate an end-of-line comment; trim; skip if now empty; a leading
exclamation mark marks exclude and is dropped; expand placeholders; normalize
backslashes; yield the rule. -/
def parseLine (ctx : List (String × String)) (line : List Char) :
    Option (String × Bool) :=
  if stripChars line = [] then none
  else if (lstripChars line).head? = some '#' then none
  else
    let line2 := stripChars (scanEol line)
    if line2 = [] then none
    else
      match line2 with
      | '!' :: p0 =>
        some (String.mk (normalizeSlashes (expandChars ctx p0)), true)
      | p0 =>
        some (String.mk (normalizeSlashes (expandChars ctx p0)), false)

/-- parse_rules parses the whole rule file: a missing file (none) yields the
empty rule list (the source logs a warning and returns); otherwise the BOM is
stripped once at file start, and each line goes through parseLine, the
resulting rules kept in file order. -/
def parse_rules (ctx : List (String × String)) (content : Option String) :
    List (String × Bool) :=
  match content with
  | none => []
  | some s => (splitOnNL (stripBOM s.data)).filterMap (parseLine ctx)

/-- joinRel models os.path.join of the normalized relative directory with a
file name inside scan_files: an empty relative directory (the walk root,
where os.path.relpath returned the dot that scan_files maps to the empty
string) yields the bare file name. -/
def joinRel (rel_dir filename : String) : String :=
  if rel_dir = "" then filename else rel_dir ++ "/" ++ filename

/-- scan_files walks the source tree (given as walk data: for each directory
its slash-normalized relative path and the file names it directly contains,
in os.walk order) and keeps each relative file path that should_copy accepts,
in traversal order. -/
def scan_files (walk : List (String × List String))
    (rules : List (String × Bool)) : List String :=
  walk.foldr
    (fun d acc =>
      d.2.filterMap
        (fun filename =>
          let rel_file_path := joinRel d.1 filename
          if should_copy rel_file_path rules then some rel_file_path else none)
      ++ acc)
    []

/-- Event is one Qt signal emission of the worker: progress_update carries the
integer percentage and a message, finished carries the success flag and a
message. -/
inductive Event where
  | progress (percent : Nat) (message : String)
  | finished (success : Bool) (message : String)
deriving DecidableEq, Repr

/-- RunResult collects what one call of run produces: the events in emission
order, and the relative paths for which a copy was attempted (paired with
whether the attempt succeeded; a failed attempt is logged and skipped, so it
changes no event). -/
structure RunResult where
  events : List Event
  copies : List (String × Bool)
deriving DecidableEq, Repr

/-- Env is the environment one run executes against: the two root paths, the
two version names derived from them at worker construction, whether the
source root exists, the rule-file content (none when the file is missing),
the walk data of the source tree, whether the i-th copy attempt succeeds, and
the value of the is_running flag at the top-of-loop check of iteration i. -/
structure Env where
  from_path : String
  to_path : String
  old_version_name : String
  new_version_name : String
  sourceExists : Bool
  ruleFileContent : Option String
  walk : List (String × List String)
  copyOk : Nat → Bool
  runningAt : Nat → Bool

/-- Env.context is the worker's placeholder context, built once at
construction. -/
def Env.context (e : Env) : List (String × String) :=
  build_placeholder_context e.old_version_name e.new_version_name
    e.from_path e.to_path

/-- int_pct is the progress percentage int(copied / total * 100), in exact
arithmetic. -/
def int_pct (copied total : Nat) : Nat :=
  copied * 100 / total

/-- copyLoop is the per-file loop of run, starting at iteration index i: the
is_running flag is checked at the top of each iteration and a cleared flag
breaks the loop; otherwise the copy is attempted (a failure is swallowed),
the count advances, and one progress event is emitted for the attempt. -/
def copyLoop (running copyOk : Nat → Bool) (total : Nat) :
    Nat → List String → List Event × List (String × Bool)
  | _, [] => ([], [])
  | i, rel_path :: rest =>
    if running i then
      let r := copyLoop running copyOk total (i + 1) rest
      (Event.progress (int_pct (i + 1) total) ("正在迁移: " ++ rel_path) :: r.1,
       (rel_path, copyOk i) :: r.2)
    else ([], [])

/-- run models MigrationWorker.run: a missing source root raises, is caught
by the outer handler and yields the single failure event; otherwise rules are
parsed, a scanning progress event is emitted, files are scanned, an empty
selection finishes successfully at once, and otherwise the copy loop runs and
the job finishes successfully. -/
def run (env : Env) : RunResult :=
  if env.sourceExists then
    let rules := parse_rules env.context env.ruleFileContent
    let files_to_copy := scan_files env.walk rules
    let total_files := files_to_copy.length
    if total_files = 0 then
      { events := [Event.progress 0 "正在扫描文件...",
                   Event.finished true "没有发现需要迁移的文件。"],
        copies := [] }
    else
      let r := copyLoop env.runningAt env.copyOk total_files 0 files_to_copy
      { events := Event.progress 0 "正在扫描文件..." ::
                    (r.1 ++ [Event.finished true "数据迁移成功！"]),
        copies := r.2 }
  else
    { events := [Event.finished false
                   ("迁移失败: Source path does not exist: " ++ env.from_path)],
      copies := [] }

/-- progressEvents is the event list the copy loop produces from iteration i
when no cancellation occurs. -/
def progressEvents (total : Nat) : Nat → List String → List Event
  | _, [] => []
  | i, rel_path :: rest =>
    Event.progress (int_pct (i + 1) total) ("正在迁移: " ++ rel_path) ::
      progressEvents total (i + 1) rest

/-- attemptsFrom is the copy-attempt list the copy loop produces from
iteration i when no cancellation occurs. -/
def attemptsFrom (copyOk : Nat → Bool) : Nat → List String → List (String × Bool)
  | _, [] => []
  | i, rel_path :: rest => (rel_path, copyOk i) :: attemptsFrom copyOk (i + 1) rest


/-- selectedFiles is the file list run computes for an environment: scan over
the walk data with the rules parsed from the rule-file content. -/
def selectedFiles (env : Env) : List String :=
  scan_files env.walk (parse_rules env.context env.ruleFileContent)

/-- isFinishedEvent distinguishes the terminal event kind. -/
def isFinishedEvent : Event → Bool
  | Event.finished _ _ => true
  | Event.progress _ _ => false

/-- ctxSample is a concrete placeholder context used in the concrete
evaluations: version names 1.20.1 and 1.21.4, and two root paths. -/
def ctxSample : List (String × String) :=
  build_placeholder_context "1.20.1" "1.21.4" "C:/old" "C:/new"

/-- envSampleA is a concrete environment whose source exists and whose rule
file is missing. -/
def envSampleA : Env :=
  { from_path := "C:/old", to_path := "C:/new",
    old_version_name := "old", new_version_name := "new",
    sourceExists := true, ruleFileContent := none,
    walk := [("", ["a.txt"])],
    copyOk := fun _ => true, runningAt := fun _ => true }

/-- envSampleB is a concrete environment whose source root is missing. -/
def envSampleB : Env :=
  { envSampleA with sourceExists := false, ruleFileContent := some "saves/\n" }

/-- envSampleC is a concrete environment for a normal run: two files in the
tree, a rule file selecting only the saves directory. -/
def envSampleC : Env :=
  { envSampleA with
    ruleFileContent := some "saves/\n!mods/\n",
    walk := [("", []), ("saves", ["level.dat"]), ("mods", ["a.jar"])] }

/-- envSampleD is a concrete environment for a cancelled run: a rule file
selecting both files, and an is_running flag that is cleared before the
second iteration. -/
def envSampleD : Env :=
  { envSampleC with
    ruleFileContent := some "*\n",
    runningAt := fun i => i == 0 }

/-- envSampleE is a concrete environment for a run whose first copy attempt
fails. -/
def envSampleE : Env :=
  { envSampleC with copyOk := fun i => ¬ (i == 0) }

/-- LoopOut is the outcome of the copy loop in the exception-extended model:
the events emitted, the copies attempted, and the message of an exception
that escaped the loop body, if any. -/
structure LoopOut where
  events : List Event
  copies : List (String × Bool)
  exc : Option String
deriving DecidableEq, Repr

/-- EnvX extends the environment with exception injection at the three
uncaught raise sites of the try-block of run: a rule-file read error inside
parse_rules (raised before the scanning progress event), a failure inside
scan_files (raised after the scanning progress event), and a failure of the
progress emission of copy iteration i (the copy attempt itself is guarded by
the inner try/except, so an exception escaping the loop body fires after the
attempt and suppresses that iteration's progress event).  Each field carries
the description str(e) of the injected exception. -/
structure EnvX where
  env : Env
  parseExc : Option String
  scanExc : Option String
  emitExc : Nat → Option String

/-- copyLoopExc is the per-file loop of run in the exception-extended model:
as copyLoop, but when the progress emission of iteration i raises, the loop
aborts with that exception; the copy attempt of iteration i stands and its
progress event is not emitted. -/
def copyLoopExc (running copyOk : Nat → Bool) (emitExc : Nat → Option String)
    (total : Nat) : Nat → List String → LoopOut
  | _, [] => { events := [], copies := [], exc := none }
  | i, rel_path :: rest =>
    if running i then
      match emitExc i with
      | some msg =>
        { events := [], copies := [(rel_path, copyOk i)], exc := some msg }
      | none =>
        let r := copyLoopExc running copyOk emitExc total (i + 1) rest
        { events := Event.progress (int_pct (i + 1) total)
              ("正在迁移: " ++ rel_path) :: r.events,
          copies := (rel_path, copyOk i) :: r.copies,
          exc := r.exc }
    else { events := [], copies := [], exc := none }

/-- runX is run over the exception-extended environment: the outer try/except
catches any injected exception and emits the single failure terminal event
carrying its description, after whatever events were already emitted; with no
injected exception runX coincides with run (proved below). -/
def runX (x : EnvX) : RunResult :=
  if x.env.sourceExists then
    match x.parseExc with
    | some msg =>
      { events := [Event.finished false ("迁移失败: " ++ msg)], copies := [] }
    | none =>
      let rules := parse_rules x.env.context x.env.ruleFileContent
      match x.scanExc with
      | some msg =>
        { events := [Event.progress 0 "正在扫描文件...",
                     Event.finished false ("迁移失败: " ++ msg)],
          copies := [] }
      | none =>
        let files_to_copy := scan_files x.env.walk rules
        let total_files := files_to_copy.length
        if total_files = 0 then
          { events := [Event.progress 0 "正在扫描文件...",
                       Event.finished true "没有发现需要迁移的文件。"],
            copies := [] }
        else
          let r := copyLoopExc x.env.runningAt x.env.copyOk x.emitExc
              total_files 0 files_to_copy
          match r.exc with
          | some msg =>
            { events := Event.progress 0 "正在扫描文件..." ::
                (r.events ++ [Event.finished false ("迁移失败: " ++ msg)]),
              copies := r.copies }
          | none =>
            { events := Event.progress 0 "正在扫描文件..." ::
                (r.events ++ [Event.finished true "数据迁移成功！"]),
              copies := r.copies }
  else
    { events := [Event.finished false
        ("迁移失败: Source path does not exist: " ++ x.env.from_path)],
      copies := [] }

theorem findClose_length :
    ∀ (l a b : List Char), findClose l = some (a, b) → b.length < l.length := by
  intro l
  induction l with
  | nil => intro a b h; simp [findClose] at h
  | cons c r ih =>
    intro a b h
    by_cases hc : c = ']'
    · simp [findClose, hc] at h
      simp [← h.2]
    · simp [findClose, hc] at h
      cases hfc : findClose r with
      | none => rw [hfc] at h; simp at h
      | some p =>
        rw [hfc] at h
        simp at h
        have := ih p.1 p.2 (by rw [hfc])
        simp [← h.2]
        omega

theorem scanContent_length :
    ∀ (l a b : List Char), scanContent l = some (a, b) → b.length < l.length := by
  intro l a b h
  match l with
  | [] => simp [scanContent] at h
  | c :: r =>
    by_cases hc : c = ']'
    · simp only [scanContent, hc, if_pos] at h
      cases hfc : findClose r with
      | none => rw [hfc] at h; simp at h
      | some p =>
        rw [hfc] at h
        simp at h
        have := findClose_length r p.1 p.2 (by rw [hfc])
        simp [← h.2]
        omega
    · simp only [scanContent, hc, if_neg, if_false] at h
      exact findClose_length _ _ _ h

theorem parseBracket_length :
    ∀ (s : List Char) (neg : Bool) (a b : List Char),
      parseBracket s = some (neg, a, b) → b.length ≤ s.length := by
  intro s neg a b h
  match s with
  | [] => simp [parseBracket, scanContent] at h
  | c :: r =>
    by_cases hc : c = '!'
    · subst hc
      simp only [parseBracket] at h
      cases hsc : scanContent r with
      | none => rw [hsc] at h; simp at h
      | some p =>
        obtain ⟨pa, pb⟩ := p
        rw [hsc] at h
        simp at h
        have := scanContent_length r pa pb hsc
        rw [← h.2.2]
        simp only [List.length_cons]
        omega
    · rw [show parseBracket (c :: r) =
          (match scanContent (c :: r) with
           | none => none
           | some (a, b) => some (false, a, b)) by
        cases c <;> simp_all [parseBracket]] at h
      cases hsc : scanContent (c :: r) with
      | none => rw [hsc] at h; simp at h
      | some p =>
        obtain ⟨pa, pb⟩ := p
        rw [hsc] at h
        simp at h
        have := scanContent_length (c :: r) pa pb hsc
        rw [← h.2.2]
        omega

theorem fnTranslateGo_fuel :
    ∀ (n : Nat) (l : List Char), l.length ≤ n → fnTranslateGo n l = fnTranslate l := by
  intro n
  induction n using Nat.strong_induction_on with
  | _ n ih =>
    intro l h
    cases l with
    | nil => cases n <;> rfl
    | cons c r =>
      have hlen : r.length + 1 ≤ n := by simpa using h
      obtain ⟨m, rfl⟩ : ∃ m, n = m + 1 := ⟨n - 1, by omega⟩
      have hr : r.length ≤ m := by omega
      have step : ∀ (k : Nat),
          fnTranslateGo (k + 1) (c :: r) =
            (if c = '*' then Tok.star :: fnTranslateGo k r
             else if c = '?' then Tok.anyOne :: fnTranslateGo k r
             else if c = '[' then
               match parseBracket r with
               | some (neg, content, rest) =>
                 Tok.cls neg (classItems content) :: fnTranslateGo k rest
               | none => Tok.lit '[' :: fnTranslateGo k r
             else Tok.lit c :: fnTranslateGo k r) := fun k => rfl
      have hTr : fnTranslate (c :: r) = fnTranslateGo (r.length + 1) (c :: r) := rfl
      rw [hTr, step m, step r.length]
      have hir : fnTranslateGo m r = fnTranslateGo r.length r := by
        rw [ih m (by omega) r hr, ih r.length (by omega) r (Nat.le_refl _)]
      by_cases hstar : c = '*'
      · simp [hstar, hir]
      · by_cases hq : c = '?'
        · simp [hstar, hq, hir]
        · by_cases hb : c = '['
          · simp only [hstar, hq, hb, if_true, if_false]
            cases hpb : parseBracket r with
            | none => simp [hir]
            | some t =>
              obtain ⟨neg, content, rest⟩ := t
              have hrest : rest.length ≤ r.length :=
                parseBracket_length r neg content rest hpb
              simp only
              rw [ih m (by omega) rest (Nat.le_trans hrest hr),
                  ih r.length (by omega) rest hrest]
              simp
          · simp [hstar, hq, hb, hir]

theorem fnTranslate_star (ps : List Char) :
    fnTranslate ('*' :: ps) = Tok.star :: fnTranslate ps := by
  show fnTranslateGo (ps.length + 1) ('*' :: ps) = _
  rw [show fnTranslateGo (ps.length + 1) ('*' :: ps) =
        Tok.star :: fnTranslateGo ps.length ps by simp [fnTranslateGo]]
  rw [fnTranslateGo_fuel ps.length ps (Nat.le_refl _)]

theorem fnTranslate_questionMark (ps : List Char) :
    fnTranslate ('?' :: ps) = Tok.anyOne :: fnTranslate ps := by
  show fnTranslateGo (ps.length + 1) ('?' :: ps) = _
  rw [show fnTranslateGo (ps.length + 1) ('?' :: ps) =
        Tok.anyOne :: fnTranslateGo ps.length ps by simp [fnTranslateGo]]
  rw [fnTranslateGo_fuel ps.length ps (Nat.le_refl _)]

theorem fnTranslate_bracket_some (ps : List Char) (neg : Bool)
    (content rest : List Char) (h : parseBracket ps = some (neg, content, rest)) :
    fnTranslate ('[' :: ps) = Tok.cls neg (classItems content) :: fnTranslate rest := by
  show fnTranslateGo (ps.length + 1) ('[' :: ps) = _
  rw [show fnTranslateGo (ps.length + 1) ('[' :: ps) =
        (match parseBracket ps with
         | some (neg, content, rest) =>
           Tok.cls neg (classItems content) :: fnTranslateGo ps.length rest
         | none => Tok.lit '[' :: fnTranslateGo ps.length ps) by simp [fnTranslateGo]]
  rw [h]
  simp only
  rw [fnTranslateGo_fuel ps.length rest (parseBracket_length ps neg content rest h)]

theorem fnTranslate_bracket_none (ps : List Char) (h : parseBracket ps = none) :
    fnTranslate ('[' :: ps) = Tok.lit '[' :: fnTranslate ps := by
  show fnTranslateGo (ps.length + 1) ('[' :: ps) = _
  rw [show fnTranslateGo (ps.length + 1) ('[' :: ps) =
        (match parseBracket ps with
         | some (neg, content, rest) =>
           Tok.cls neg (classItems content) :: fnTranslateGo ps.length rest
         | none => Tok.lit '[' :: fnTranslateGo ps.length ps) by simp [fnTranslateGo]]
  rw [h]
  simp only
  rw [fnTranslateGo_fuel ps.length ps (Nat.le_refl _)]

theorem fnTranslate_lit (c : Char) (ps : List Char)
    (h1 : c ≠ '*') (h2 : c ≠ '?') (h3 : c ≠ '[') :
    fnTranslate (c :: ps) = Tok.lit c :: fnTranslate ps := by
  show fnTranslateGo (ps.length + 1) (c :: ps) = _
  rw [show fnTranslateGo (ps.length + 1) (c :: ps) =
        Tok.lit c :: fnTranslateGo ps.length ps by simp [fnTranslateGo, h1, h2, h3]]
  rw [fnTranslateGo_fuel ps.length ps (Nat.le_refl _)]

theorem takeToClose_length :
    ∀ (l a b : List Char), takeToClose l = some (a, b) → b.length < l.length := by
  intro l
  induction l with
  | nil => intro a b h; simp [takeToClose] at h
  | cons c r ih =>
    intro a b h
    by_cases hc : c = '\x7d'
    · simp [takeToClose, hc] at h
      simp [← h.2]
    · simp [takeToClose, hc] at h
      cases hfc : takeToClose r with
      | none => rw [hfc] at h; simp at h
      | some p =>
        rw [hfc] at h
        simp at h
        have := ih p.1 p.2 (by rw [hfc])
        simp [← h.2]
        omega

theorem takeToClose_none (l : List Char) (h : '\x7d' ∉ l) : takeToClose l = none := by
  induction l with
  | nil => rfl
  | cons c r ih =>
    have hc : c ≠ '\x7d' := fun hc => h (hc ▸ List.mem_cons_self c r)
    have hr : '\x7d' ∉ r := fun hm => h (List.mem_cons_of_mem c hm)
    simp [takeToClose, hc, ih hr]

theorem takeToClose_append (K tail : List Char) (hKc : '\x7d' ∉ K) :
    takeToClose (K ++ '\x7d' :: tail) = some (K, tail) := by
  induction K with
  | nil => simp [takeToClose]
  | cons c r ih =>
    have hc : c ≠ '\x7d' := fun hc => hKc (hc ▸ List.mem_cons_self c r)
    have hr : '\x7d' ∉ r := fun hm => hKc (List.mem_cons_of_mem c hm)
    simp [takeToClose, hc, ih hr]

theorem expandGo_fuel :
    ∀ (n : Nat) (ctx : List (String × String)) (l : List Char),
      l.length ≤ n → expandGo n ctx l = expandChars ctx l := by
  intro n
  induction n using Nat.strong_induction_on with
  | _ n ih =>
    intro ctx l h
    match l with
    | [] => cases n <;> rfl
    | [c] =>
      have : 1 ≤ n := by simpa using h
      obtain ⟨m, rfl⟩ : ∃ m, n = m + 1 := ⟨n - 1, by omega⟩
      rfl
    | c1 :: c2 :: rest =>
      have hlen : rest.length + 2 ≤ n := by simpa using h
      obtain ⟨m, rfl⟩ : ∃ m, n = m + 1 := ⟨n - 1, by omega⟩
      have hr : rest.length + 1 ≤ m := by omega
      have step : ∀ (k : Nat),
          expandGo (k + 1) ctx (c1 :: c2 :: rest) =
            (if c1 = '$' then
              if c2 = '\x7b' then
                match takeToClose rest with
                | some (ident, after) =>
                  if ident = [] then '$' :: '\x7b' :: expandGo k ctx rest
                  else
                    match ctxLookup ctx ident with
                    | some v => v.data ++ expandGo k ctx after
                    | none =>
                      '$' :: '\x7b' :: (ident ++ '\x7d' :: expandGo k ctx after)
                | none => '$' :: '\x7b' :: expandGo k ctx rest
              else c1 :: expandGo k ctx (c2 :: rest)
            else c1 :: expandGo k ctx (c2 :: rest)) := fun k => rfl
      have hTr : expandChars ctx (c1 :: c2 :: rest) =
          expandGo (rest.length + 2) ctx (c1 :: c2 :: rest) := rfl
      rw [hTr, show rest.length + 2 = (rest.length + 1) + 1 from rfl, step m,
          step (rest.length + 1)]
      have htail : expandGo m ctx (c2 :: rest) = expandGo (rest.length + 1) ctx (c2 :: rest) := by
        rw [ih m (by omega) ctx (c2 :: rest) (by simp; omega),
            ih (rest.length + 1) (by omega) ctx (c2 :: rest) (by simp)]
      by_cases hc1 : c1 = '$'
      · by_cases hc2 : c2 = '\x7b'
        · simp only [hc1, hc2, if_true]
          cases htc : takeToClose rest with
          | none =>
            simp only
            rw [ih m (by omega) ctx rest (by omega),
                ih (rest.length + 1) (by omega) ctx rest (by omega)]
          | some p =>
            obtain ⟨ident, after⟩ := p
            have hafter : after.length < rest.length :=
              takeToClose_length rest ident after htc
            by_cases hid : ident = []
            · simp only [hid, if_true]
              rw [ih m (by omega) ctx rest (by omega),
                  ih (rest.length + 1) (by omega) ctx rest (by omega)]
            · simp only [hid, if_false]
              cases hlk : ctxLookup ctx ident with
              | none =>
                simp only
                rw [ih m (by omega) ctx after (by omega),
                    ih (rest.length + 1) (by omega) ctx after (by omega)]
              | some v =>
                simp only
                rw [ih m (by omega) ctx after (by omega),
                    ih (rest.length + 1) (by omega) ctx after (by omega)]
        · simp only [hc1, hc2, if_true, if_false, htail]
      · simp only [hc1, if_false, htail]

theorem expandChars_nil (ctx : List (String × String)) : expandChars ctx [] = [] := rfl

theorem expandChars_single (ctx : List (String × String)) (c : Char) :
    expandChars ctx [c] = [c] := rfl

/-- Scanning passes over any position that does not start a placeholder
token. -/
theorem expandChars_step_other (ctx : List (String × String)) (c1 c2 : Char)
    (rest : List Char) (h : ¬(c1 = '$' ∧ c2 = '\x7b')) :
    expandChars ctx (c1 :: c2 :: rest) = c1 :: expandChars ctx (c2 :: rest) := by
  have step : expandChars ctx (c1 :: c2 :: rest) =
      (if c1 = '$' then
        if c2 = '\x7b' then
          match takeToClose rest with
          | some (ident, after) =>
            if ident = [] then
              '$' :: '\x7b' :: expandGo (rest.length + 1) ctx rest
            else
              match ctxLookup ctx ident with
              | some v => v.data ++ expandGo (rest.length + 1) ctx after
              | none =>
                '$' :: '\x7b' ::
                  (ident ++ '\x7d' :: expandGo (rest.length + 1) ctx after)
          | none => '$' :: '\x7b' :: expandGo (rest.length + 1) ctx rest
        else c1 :: expandGo (rest.length + 1) ctx (c2 :: rest)
      else c1 :: expandGo (rest.length + 1) ctx (c2 :: rest)) := rfl
  rw [step]
  by_cases hc1 : c1 = '$'
  · have hc2 : ¬ c2 = '\x7b' := fun hc2 => h ⟨hc1, hc2⟩
    simp only [hc1, hc2, if_true, if_false]
    rw [expandGo_fuel (rest.length + 1) ctx (c2 :: rest) (by simp)]
  · simp only [hc1, if_false]
    rw [expandGo_fuel (rest.length + 1) ctx (c2 :: rest) (by simp)]

/-- A placeholder token is replaced by the context value of its identifier
when the identifier is a context key, and left completely unchanged otherwise;
in both cases scanning resumes after the token. -/
theorem expandChars_token (ctx : List (String × String)) (K tail : List Char)
    (hK : K ≠ []) (hKc : '\x7d' ∉ K) :
    expandChars ctx ('$' :: '\x7b' :: (K ++ '\x7d' :: tail)) =
      (match ctxLookup ctx K with
       | some v => v.data ++ expandChars ctx tail
       | none => '$' :: '\x7b' :: (K ++ '\x7d' :: expandChars ctx tail)) := by
  have hfuel : tail.length ≤ (K ++ '\x7d' :: tail).length := by
    simp only [List.length_append, List.length_cons]
    omega
  have step : expandChars ctx ('$' :: '\x7b' :: (K ++ '\x7d' :: tail)) =
      (match takeToClose (K ++ '\x7d' :: tail) with
       | some (ident, after) =>
         if ident = [] then
           '$' :: '\x7b' ::
             expandGo ((K ++ '\x7d' :: tail).length + 1) ctx (K ++ '\x7d' :: tail)
         else
           match ctxLookup ctx ident with
           | some v =>
             v.data ++ expandGo ((K ++ '\x7d' :: tail).length + 1) ctx after
           | none =>
             '$' :: '\x7b' ::
               (ident ++ '\x7d' ::
                 expandGo ((K ++ '\x7d' :: tail).length + 1) ctx after)
       | none =>
         '$' :: '\x7b' ::
           expandGo ((K ++ '\x7d' :: tail).length + 1) ctx (K ++ '\x7d' :: tail)) := rfl
  rw [step, takeToClose_append K tail hKc]
  simp only [hK, if_false]
  cases hlk : ctxLookup ctx K with
  | none =>
    simp only
    rw [expandGo_fuel ((K ++ '\x7d' :: tail).length + 1) ctx tail (by omega)]
  | some v =>
    simp only
    rw [expandGo_fuel ((K ++ '\x7d' :: tail).length + 1) ctx tail (by omega)]

/-- An opening dollar-brace with no closing brace in the remaining text
starts no match: the two characters are kept and scanning resumes after
them. -/
theorem expandChars_token_unclosed (ctx : List (String × String))
    (rest : List Char) (h : takeToClose rest = none) :
    expandChars ctx ('$' :: '\x7b' :: rest) = '$' :: '\x7b' :: expandChars ctx rest := by
  have step : expandChars ctx ('$' :: '\x7b' :: rest) =
      (match takeToClose rest with
       | some (ident, after) =>
         if ident = [] then
           '$' :: '\x7b' :: expandGo (rest.length + 1) ctx rest
         else
           match ctxLookup ctx ident with
           | some v => v.data ++ expandGo (rest.length + 1) ctx after
           | none =>
             '$' :: '\x7b' :: (ident ++ '\x7d' :: expandGo (rest.length + 1) ctx after)
       | none => '$' :: '\x7b' :: expandGo (rest.length + 1) ctx rest) := rfl
  rw [step, h]
  simp only
  rw [expandGo_fuel (rest.length + 1) ctx rest (by omega)]

/-- Text containing no closing brace is returned unchanged: in particular an
opening dollar-brace that is never closed is left as-is. -/
theorem expandChars_no_close (ctx : List (String × String)) :
    ∀ (l : List Char), '\x7d' ∉ l → expandChars ctx l = l := by
  have main : ∀ (n : Nat) (l : List Char), l.length ≤ n → '\x7d' ∉ l →
      expandChars ctx l = l := by
    intro n
    induction n with
    | zero =>
      intro l hl _
      have : l = [] := by cases l with
        | nil => rfl
        | cons c r => simp at hl
      simp [this, expandChars_nil]
    | succ m ih =>
      intro l hl h
      match l with
      | [] => rfl
      | [c] => exact expandChars_single ctx c
      | c1 :: c2 :: rest =>
        have hr : '\x7d' ∉ c2 :: rest := fun hm => h (List.mem_cons_of_mem c1 hm)
        have hrest : '\x7d' ∉ rest := fun hm => hr (List.mem_cons_of_mem c2 hm)
        have hl2 : (c2 :: rest).length ≤ m := by simp at hl ⊢; omega
        by_cases hp : c1 = '$' ∧ c2 = '\x7b'
        · rw [hp.1, hp.2, expandChars_token_unclosed ctx rest (takeToClose_none rest hrest)]
          have hrm : rest.length ≤ m := by simp at hl; omega
          rw [ih rest hrm hrest]
        · rw [expandChars_step_other ctx c1 c2 rest hp, ih (c2 :: rest) hl2 hr]
  intro l
  exact main l.length l (Nat.le_refl _)

theorem copyLoop_of_running (running copyOk : Nat → Bool) (total : Nat) :
    ∀ (fs : List String) (i : Nat), (∀ j, running j = true) →
      copyLoop running copyOk total i fs =
        (progressEvents total i fs, attemptsFrom copyOk i fs) := by
  intro fs
  induction fs with
  | nil => intro i _; rfl
  | cons f rest ih =>
    intro i h
    simp [copyLoop, h i, progressEvents, attemptsFrom, ih (i + 1) h]

theorem copyLoop_stopped (running copyOk : Nat → Bool) (total : Nat) :
    ∀ (k : Nat) (fs : List String) (i : Nat),
      (∀ j, j < k → running (i + j) = true) → running (i + k) = false →
      copyLoop running copyOk total i fs =
        (progressEvents total i (fs.take k), attemptsFrom copyOk i (fs.take k)) := by
  intro k
  induction k with
  | zero =>
    intro fs i _ hstop
    cases fs with
    | nil => rfl
    | cons f rest =>
      simp only [Nat.add_zero] at hstop
      simp [copyLoop, hstop, List.take, progressEvents, attemptsFrom]
  | succ m ih =>
    intro fs i hrun hstop
    cases fs with
    | nil => rfl
    | cons f rest =>
      have h0 : running i = true := by
        have := hrun 0 (Nat.succ_pos m)
        simpa using this
      have hrun2 : ∀ j, j < m → running ((i + 1) + j) = true := by
        intro j hj
        have := hrun (j + 1) (by omega)
        rw [show i + (j + 1) = (i + 1) + j by omega] at this
        exact this
      have hstop2 : running ((i + 1) + m) = false := by
        rw [show (i + 1) + m = i + (m + 1) by omega]
        exact hstop
      simp [copyLoop, h0, List.take, progressEvents, attemptsFrom,
            ih rest (i + 1) hrun2 hstop2]

theorem fnmatch_empty_pattern (R : String) (h : R ≠ "") : fnmatch R "" = false := by
  show tokMatch (fnTranslate "".data) R.data = false
  have hd : R.data ≠ [] := fun hd => h (String.ext (hd.trans rfl))
  show R.data.isEmpty = false
  cases hR : R.data with
  | nil => exact absurd hR hd
  | cons c r => rfl

theorem ruleMatches_empty_pattern (R : String) (h : R ≠ "") :
    ruleMatches R "" = false := by
  show (if endsWithSlash "" then _ else fnmatch R "") = false
  rw [show endsWithSlash "" = false from rfl]
  simp only [if_false, Bool.false_eq_true]
  exact fnmatch_empty_pattern R h

theorem should_copy_nil_rules (R : String) : should_copy R [] = false := rfl

theorem scan_files_nil_rules (walk : List (String × List String)) :
    scan_files walk [] = [] := by
  induction walk with
  | nil => rfl
  | cons d rest ih =>
    show (d.2.filterMap _ ++ scan_files rest []) = []
    rw [ih, List.append_nil]
    apply List.filterMap_eq_nil_iff.mpr
    intro fn _
    simp only [should_copy_nil_rules, if_false]
    rfl

theorem joinRel_ne_empty (rel_dir filename : String) (h : filename ≠ "") :
    joinRel rel_dir filename ≠ "" := by
  unfold joinRel
  by_cases hr : rel_dir = ""
  · simpa [hr] using h
  · simp only [hr, if_false]
    intro he
    have : (rel_dir ++ "/" ++ filename).data = [] := by rw [he]
    rw [String.data_append, String.data_append] at this
    simp at this

theorem scan_files_not_mem_empty (walk : List (String × List String))
    (rules : List (String × Bool))
    (h : ∀ d ∈ walk, ∀ fn ∈ d.2, fn ≠ "") :
    "" ∉ scan_files walk rules := by
  induction walk with
  | nil => simp [scan_files]
  | cons d rest ih =>
    intro hmem
    have hsplit : ("" : String) ∈ d.2.filterMap
          (fun filename =>
            let rel_file_path := joinRel d.1 filename
            if should_copy rel_file_path rules then some rel_file_path else none)
        ∨ ("" : String) ∈ scan_files rest rules := by
      have : scan_files (d :: rest) rules =
          d.2.filterMap
            (fun filename =>
              let rel_file_path := joinRel d.1 filename
              if should_copy rel_file_path rules then some rel_file_path else none)
          ++ scan_files rest rules := rfl
      rw [this] at hmem
      exact List.mem_append.mp hmem
    rcases hsplit with hin | hin
    · obtain ⟨fn, hfn, heq⟩ := List.mem_filterMap.mp hin
      have hne : joinRel d.1 fn ≠ "" :=
        joinRel_ne_empty d.1 fn (h d (List.mem_cons_self d rest) fn hfn)
      by_cases hc : should_copy (joinRel d.1 fn) rules
      · simp only [hc, if_true] at heq
        exact hne (Option.some.inj heq)
      · simp only [hc, if_false] at heq
        cases heq
    · exact ih (fun d2 hd2 => h d2 (List.mem_cons_of_mem d hd2)) hin

theorem progressEvents_length (total : Nat) :
    ∀ (fs : List String) (i : Nat), (progressEvents total i fs).length = fs.length := by
  intro fs
  induction fs with
  | nil => intro i; rfl
  | cons f rest ih => intro i; simp [progressEvents, ih (i + 1)]

theorem copyLoop_events_no_finished (running copyOk : Nat → Bool) (total : Nat) :
    ∀ (fs : List String) (i : Nat),
      ((copyLoop running copyOk total i fs).1.countP (fun e => isFinishedEvent e)) = 0 := by
  intro fs
  induction fs with
  | nil => intro i; rfl
  | cons f rest ih =>
    intro i
    by_cases hr : running i = true
    · have hstep : (copyLoop running copyOk total i (f :: rest)).1 =
          Event.progress (int_pct (i + 1) total) ("正在迁移: " ++ f) ::
            (copyLoop running copyOk total (i + 1) rest).1 := by
        simp [copyLoop, hr]
      rw [hstep, List.countP_cons, ih (i + 1)]
      rfl
    · simp only [Bool.not_eq_true] at hr
      simp [copyLoop, hr]

/-- Claim C1: should_copy starts from the default decision false, evaluates
every rule in list order without short-circuit, sets the decision to true on a
matching include rule and to false on a matching exclude rule, leaves it
untouched for non-matching rules, and returns the decision after the last
rule: with an empty rule list every path yields false, appending a rule to the
list overwrites the decision exactly when the rule matches, and for a path
matched by P the single include rule yields true, appending an exclude rule
with P flips the decision to false, and appending a further include with P
flips it back to true (last match wins). -/
theorem C1_last_match_wins (R P : String) (rules : List (String × Bool))
    (ex : Bool) (h : ruleMatches R P = true) :
    should_copy R [] = false ∧
    should_copy R (rules ++ [(P, ex)]) =
      (if ruleMatches R P then !ex else should_copy R rules) ∧
    should_copy R [(P, false)] = true ∧
    should_copy R [(P, false), (P, true)] = false ∧
    should_copy R [(P, false), (P, true), (P, false)] = true := by
  refine ⟨rfl, ?_, ?_, ?_, ?_⟩
  · simp [should_copy, List.foldl_append]
  · simp [should_copy, h]
  · simp [should_copy, h]
  · simp [should_copy, h]

theorem C1_last_match_wins_witness :
    ruleMatches "saves/level.dat" "saves/" = true ∧
    (should_copy "saves/level.dat" [] = false ∧
     should_copy "saves/level.dat" ([("mods/", true)] ++ [("saves/", true)]) =
       (if ruleMatches "saves/level.dat" "saves/" then !true
        else should_copy "saves/level.dat" [("mods/", true)]) ∧
     should_copy "saves/level.dat" [("saves/", false)] = true ∧
     should_copy "saves/level.dat" [("saves/", false), ("saves/", true)] = false ∧
     should_copy "saves/level.dat"
       [("saves/", false), ("saves/", true), ("saves/", false)] = true) :=
  ⟨by decide,
   C1_last_match_wins "saves/level.dat" "saves/" [("mods/", true)] true (by decide)⟩

/-- Claim C2: a rule whose pattern ends with a slash is a directory rule:
with the cleaned pattern C obtained by removing the trailing slashes, it
matches a relative path R exactly when R glob-matches C or R glob-matches C
followed by slash-star, where the star of the appended suffix is globbed
against the whole remaining string and so absorbs path separators; concretely
the pattern saves/ accepts saves/level.dat and rejects mods/a.jar, and the
pattern starIASstar-slash accepts AutoIAS/config.txt and
MyIASStuff/sub/a.txt and rejects Other/mods.txt. -/
theorem C2_directory_rule (P R : String) (h : endsWithSlash P = true) :
    ruleMatches R P =
      (fnmatch R (rstrip_slashes P) || fnmatch R (rstrip_slashes P ++ "/*")) ∧
    should_copy "saves/level.dat" [("saves/", false)] = true ∧
    should_copy "mods/a.jar" [("saves/", false)] = false ∧
    should_copy "AutoIAS/config.txt" [("*IAS*/", false)] = true ∧
    should_copy "MyIASStuff/sub/a.txt" [("*IAS*/", false)] = true ∧
    should_copy "Other/mods.txt" [("*IAS*/", false)] = false := by
  refine ⟨?_, by decide, by decide, by decide, by decide, by decide⟩
  simp [ruleMatches, h]

theorem C2_directory_rule_witness :
    endsWithSlash "saves/" = true ∧
    (ruleMatches "saves/level.dat" "saves/" =
      (fnmatch "saves/level.dat" (rstrip_slashes "saves/") ||
        fnmatch "saves/level.dat" (rstrip_slashes "saves/" ++ "/*")) ∧
     should_copy "saves/level.dat" [("saves/", false)] = true ∧
     should_copy "mods/a.jar" [("saves/", false)] = false ∧
     should_copy "AutoIAS/config.txt" [("*IAS*/", false)] = true ∧
     should_copy "MyIASStuff/sub/a.txt" [("*IAS*/", false)] = true ∧
     should_copy "Other/mods.txt" [("*IAS*/", false)] = false) :=
  ⟨by decide, C2_directory_rule "saves/" "saves/level.dat" (by decide)⟩

/-- Claim C3: the per-line pipeline of parse_rules, in order: BOM stripped
once at file start only; lines empty after trimming or starting (after
leading whitespace) with a hash are skipped; the first hash preceded by a
whitespace character and not in first position truncates the line at the
character before it; the result is trimmed and skipped if empty; a leading
exclamation mark marks exclude and is dropped; placeholders are expanded;
backslashes become forward slashes; rules are collected in file order.  The
claim's rule file of a BOM, a full-line comment, a blank line and the line
saves/ with a trailing comment parses to the single include rule saves/; a
larger file exercises every pipeline stage; a BOM after file start is kept; a
hash without preceding whitespace does not start a comment; only the first
whitespace-preceded hash matters. -/
theorem C3_parse_pipeline (ctx : List (String × String)) :
    parse_rules ctx (some "\uFEFF# comment\n\nsaves/  # note\n") =
      [("saves/", false)] ∧
    parse_rules ctxSample
      (some ("\uFEFF# full line comment\n   # comment with leading whitespace\n\nsaves/  # copy saves dir\n!saves/backup/  # exclude backup\nconfig\\options.txt\n!mods/*.jar\nlogs/$\x7bNEW_VERSION_NAME\x7d.log\nlogs/$\x7bOLD_VERION_NAME\x7d.log\n")) =
      [("saves/", false), ("saves/backup/", true), ("config/options.txt", false),
       ("mods/*.jar", true), ("logs/1.21.4.log", false),
       ("logs/$\x7bOLD_VERION_NAME\x7d.log", false)] ∧
    parse_rules ctx (some "a\n\uFEFFb\n") = [("a", false), ("\uFEFFb", false)] ∧
    parse_rules ctx (some "a#b\n") = [("a#b", false)] ∧
    parse_rules ctx (some "a #b #c\n") = [("a", false)] :=
  ⟨rfl, by decide, rfl, rfl, rfl⟩

/-- Claim C10: a rule-file line consisting solely of an exclamation mark is
not skipped and parses to an exclude rule with the empty pattern; the empty
pattern is not a directory rule and glob-matches only the empty string, which
is never a scanned relative file path (walk file names are nonempty), so such
a rule matches no file and never changes any copy decision. -/
theorem C10_bare_exclamation_rule (ctx : List (String × String)) (R : String)
    (rules1 rules2 : List (String × Bool)) (walk : List (String × List String))
    (rules : List (String × Bool)) (hR : R ≠ "")
    (hwalk : ∀ d ∈ walk, ∀ fn ∈ d.2, fn ≠ "") :
    parseLine ctx ['!'] = some ("", true) ∧
    endsWithSlash "" = false ∧
    fnmatch "" "" = true ∧
    fnmatch R "" = false ∧
    should_copy R (rules1 ++ ("", true) :: rules2) =
      should_copy R (rules1 ++ rules2) ∧
    "" ∉ scan_files walk rules := by
  refine ⟨rfl, rfl, rfl, fnmatch_empty_pattern R hR, ?_,
    scan_files_not_mem_empty walk rules hwalk⟩
  have hrm : ruleMatches R "" = false := ruleMatches_empty_pattern R hR
  simp [should_copy, List.foldl_append, hrm]

theorem C10_bare_exclamation_rule_witness :
    ("a" : String) ≠ "" ∧
    (∀ d ∈ [(("" : String), (["a.txt"] : List String))], ∀ fn ∈ d.2, fn ≠ "") ∧
    (parseLine [] ['!'] = some ("", true) ∧
     endsWithSlash "" = false ∧
     fnmatch "" "" = true ∧
     fnmatch "a" "" = false ∧
     should_copy "a" ([("a", false)] ++ ("", true) :: []) =
       should_copy "a" ([("a", false)] ++ []) ∧
     "" ∉ scan_files [("", ["a.txt"])] [("*", false)]) :=
  ⟨by decide, by decide,
   C10_bare_exclamation_rule [] "a" [("a", false)] [] [("", ["a.txt"])]
     [("*", false)] (by decide) (by decide)⟩

/-- Claim C4: placeholder expansion replaces every occurrence of the token
shape dollar-brace-identifier-brace whose identifier is one of the four
context keys with that key's value, leaves every token whose identifier is
not in the context (including near-miss misspelled keys) completely
unchanged including the braces, leaves an unclosed dollar-brace as-is, and
has no escaping mechanism (a preceding backslash does not prevent
expansion).  The head-position equations together with the pass-over
equation expandChars_step_other determine the behaviour at every
occurrence. -/
theorem C4_placeholder_expansion (a b c d : String) (rest : List Char)
    (t : String) (ht : '\x7d' ∉ t.data) :
    expandChars (build_placeholder_context a b c d)
        ('$' :: '\x7b' :: ("OLD_VERSION_NAME".data ++ '\x7d' :: rest)) =
      a.data ++ expandChars (build_placeholder_context a b c d) rest ∧
    expandChars (build_placeholder_context a b c d)
        ('$' :: '\x7b' :: ("NEW_VERSION_NAME".data ++ '\x7d' :: rest)) =
      b.data ++ expandChars (build_placeholder_context a b c d) rest ∧
    expandChars (build_placeholder_context a b c d)
        ('$' :: '\x7b' :: ("OLD_VERSION_PATH".data ++ '\x7d' :: rest)) =
      c.data ++ expandChars (build_placeholder_context a b c d) rest ∧
    expandChars (build_placeholder_context a b c d)
        ('$' :: '\x7b' :: ("NEW_VERSION_PATH".data ++ '\x7d' :: rest)) =
      d.data ++ expandChars (build_placeholder_context a b c d) rest ∧
    expandChars (build_placeholder_context a b c d)
        ('$' :: '\x7b' :: ("OLD_VERION_NAME".data ++ '\x7d' :: rest)) =
      '$' :: '\x7b' ::
        ("OLD_VERION_NAME".data ++ '\x7d' ::
          expandChars (build_placeholder_context a b c d) rest) ∧
    _expand_placeholders (build_placeholder_context a b c d) t = t ∧
    expandChars (build_placeholder_context a b c d)
        ('\\' :: '$' :: '\x7b' :: ("OLD_VERSION_NAME".data ++ '\x7d' :: rest)) =
      '\\' :: (a.data ++ expandChars (build_placeholder_context a b c d) rest) ∧
    _expand_placeholders ctxSample "logs/$\x7bNEW_VERSION_NAME\x7d.log" =
      "logs/1.21.4.log" ∧
    _expand_placeholders ctxSample "$\x7bUNKNOWN_PLACEHOLDER\x7d" =
      "$\x7bUNKNOWN_PLACEHOLDER\x7d" ∧
    _expand_placeholders ctxSample "$\x7bOLD_VERION_NAME\x7d" =
      "$\x7bOLD_VERION_NAME\x7d" ∧
    _expand_placeholders ctxSample "a$\x7bOLD_VERSION_NAME" =
      "a$\x7bOLD_VERSION_NAME" := by
  have hkey : ∀ (K : List Char), K ≠ [] → '\x7d' ∉ K →
      expandChars (build_placeholder_context a b c d)
          ('$' :: '\x7b' :: (K ++ '\x7d' :: rest)) =
        (match ctxLookup (build_placeholder_context a b c d) K with
         | some v =>
           v.data ++ expandChars (build_placeholder_context a b c d) rest
         | none =>
           '$' :: '\x7b' ::
             (K ++ '\x7d' :: expandChars (build_placeholder_context a b c d) rest)) :=
    fun K hK hKc => expandChars_token (build_placeholder_context a b c d) K rest hK hKc
  refine ⟨?_, ?_, ?_, ?_, ?_, ?_, ?_, by decide, by decide, by decide, by decide⟩
  · exact hkey "OLD_VERSION_NAME".data (by decide) (by decide)
  · exact hkey "NEW_VERSION_NAME".data (by decide) (by decide)
  · exact hkey "OLD_VERSION_PATH".data (by decide) (by decide)
  · exact hkey "NEW_VERSION_PATH".data (by decide) (by decide)
  · exact hkey "OLD_VERION_NAME".data (by decide) (by decide)
  · show String.mk (expandChars (build_placeholder_context a b c d) t.data) = t
    rw [expandChars_no_close (build_placeholder_context a b c d) t.data ht]
  · rw [expandChars_step_other (build_placeholder_context a b c d) '\\' '$'
        ('\x7b' :: ("OLD_VERSION_NAME".data ++ '\x7d' :: rest)) (by decide)]
    rw [hkey "OLD_VERSION_NAME".data (by decide) (by decide)]
    rfl

theorem C4_placeholder_expansion_witness :
    ('\x7d' ∉ ("a$\x7bOPEN" : String).data) ∧
    (expandChars (build_placeholder_context "1.20.1" "1.21.4" "C:/old" "C:/new")
        ('$' :: '\x7b' :: ("OLD_VERSION_NAME".data ++ '\x7d' :: [])) =
      ("1.20.1" : String).data ++
        expandChars (build_placeholder_context "1.20.1" "1.21.4" "C:/old" "C:/new") [] ∧
     expandChars (build_placeholder_context "1.20.1" "1.21.4" "C:/old" "C:/new")
        ('$' :: '\x7b' :: ("NEW_VERSION_NAME".data ++ '\x7d' :: [])) =
      ("1.21.4" : String).data ++
        expandChars (build_placeholder_context "1.20.1" "1.21.4" "C:/old" "C:/new") [] ∧
     expandChars (build_placeholder_context "1.20.1" "1.21.4" "C:/old" "C:/new")
        ('$' :: '\x7b' :: ("OLD_VERSION_PATH".data ++ '\x7d' :: [])) =
      ("C:/old" : String).data ++
        expandChars (build_placeholder_context "1.20.1" "1.21.4" "C:/old" "C:/new") [] ∧
     expandChars (build_placeholder_context "1.20.1" "1.21.4" "C:/old" "C:/new")
        ('$' :: '\x7b' :: ("NEW_VERSION_PATH".data ++ '\x7d' :: [])) =
      ("C:/new" : String).data ++
        expandChars (build_placeholder_context "1.20.1" "1.21.4" "C:/old" "C:/new") [] ∧
     expandChars (build_placeholder_context "1.20.1" "1.21.4" "C:/old" "C:/new")
        ('$' :: '\x7b' :: ("OLD_VERION_NAME".data ++ '\x7d' :: [])) =
      '$' :: '\x7b' ::
        ("OLD_VERION_NAME".data ++ '\x7d' ::
          expandChars (build_placeholder_context "1.20.1" "1.21.4" "C:/old" "C:/new") []) ∧
     _expand_placeholders (build_placeholder_context "1.20.1" "1.21.4" "C:/old" "C:/new")
        "a$\x7bOPEN" = "a$\x7bOPEN" ∧
     expandChars (build_placeholder_context "1.20.1" "1.21.4" "C:/old" "C:/new")
        ('\\' :: '$' :: '\x7b' :: ("OLD_VERSION_NAME".data ++ '\x7d' :: [])) =
      '\\' :: (("1.20.1" : String).data ++
        expandChars (build_placeholder_context "1.20.1" "1.21.4" "C:/old" "C:/new") []) ∧
     _expand_placeholders ctxSample "logs/$\x7bNEW_VERSION_NAME\x7d.log" =
      "logs/1.21.4.log" ∧
     _expand_placeholders ctxSample "$\x7bUNKNOWN_PLACEHOLDER\x7d" =
      "$\x7bUNKNOWN_PLACEHOLDER\x7d" ∧
     _expand_placeholders ctxSample "$\x7bOLD_VERION_NAME\x7d" =
      "$\x7bOLD_VERION_NAME\x7d" ∧
     _expand_placeholders ctxSample "a$\x7bOLD_VERSION_NAME" =
      "a$\x7bOLD_VERSION_NAME") :=
  ⟨by decide,
   C4_placeholder_expansion "1.20.1" "1.21.4" "C:/old" "C:/new" [] "a$\x7bOPEN"
     (by decide)⟩

theorem copyLoop_events_indep (running : Nat → Bool) (total : Nat)
    (ok ok2 : Nat → Bool) :
    ∀ (fs : List String) (i : Nat),
      (copyLoop running ok total i fs).1 = (copyLoop running ok2 total i fs).1 := by
  intro fs
  induction fs with
  | nil => intro i; rfl
  | cons f rest ih =>
    intro i
    by_cases hr : running i = true
    · simp [copyLoop, hr, ih (i + 1)]
    · simp only [Bool.not_eq_true] at hr
      simp [copyLoop, hr]

theorem run_normal (env : Env) (hsrc : env.sourceExists = true)
    (hne : selectedFiles env ≠ []) :
    run env =
      { events := Event.progress 0 "正在扫描文件..." ::
          ((copyLoop env.runningAt env.copyOk (selectedFiles env).length 0
              (selectedFiles env)).1 ++ [Event.finished true "数据迁移成功！"]),
        copies := (copyLoop env.runningAt env.copyOk (selectedFiles env).length 0
            (selectedFiles env)).2 } := by
  have htot : ¬ ((scan_files env.walk
      (parse_rules env.context env.ruleFileContent)).length = 0) := by
    intro h0
    exact hne (List.length_eq_zero.mp h0)
  simp only [run, hsrc, if_true]
  rw [if_neg htot]
  rfl

/-- Claim C5: parse_rules never fails — a missing rule file yields the empty
rule list — and a run whose source exists but whose rule file is missing
selects zero files, performs no copy phase, and terminates with the success
terminal event carrying the nothing-to-migrate message, after the scanning
progress event. -/
theorem C5_missing_rule_file (ctx : List (String × String)) (env : Env)
    (h1 : env.sourceExists = true) (h2 : env.ruleFileContent = none) :
    parse_rules ctx none = [] ∧
    run env =
      { events := [Event.progress 0 "正在扫描文件...",
                   Event.finished true "没有发现需要迁移的文件。"],
        copies := [] } := by
  refine ⟨rfl, ?_⟩
  have hscan : scan_files env.walk
      (parse_rules env.context env.ruleFileContent) = [] := by
    rw [h2]
    exact scan_files_nil_rules env.walk
  simp only [run, h1, if_true, hscan]
  rfl

theorem C5_missing_rule_file_witness :
    envSampleA.sourceExists = true ∧
    envSampleA.ruleFileContent = none ∧
    (parse_rules [] none = [] ∧
     run envSampleA =
       { events := [Event.progress 0 "正在扫描文件...",
                    Event.finished true "没有发现需要迁移的文件。"],
         copies := [] }) :=
  ⟨rfl, rfl, C5_missing_rule_file [] envSampleA rfl rfl⟩

/-- Claim C6: a run whose source root does not exist terminates with a single
failure terminal event whose message names the missing source path, before
rules are parsed or any file is scanned, with no progress event and no copy
attempted. -/
theorem C6_missing_source (env : Env) (h : env.sourceExists = false) :
    run env =
      { events := [Event.finished false
          ("迁移失败: Source path does not exist: " ++ env.from_path)],
        copies := [] } := by
  simp [run, h]

theorem C6_missing_source_witness :
    envSampleB.sourceExists = false ∧
    run envSampleB =
      { events := [Event.finished false
          ("迁移失败: Source path does not exist: " ++ envSampleB.from_path)],
        copies := [] } :=
  ⟨rfl, C6_missing_source envSampleB rfl⟩

/-- Claim C7: during the copy phase a per-file copy failure is logged and the
file skipped without aborting the job: for every selected file exactly one
progress event is emitted after the attempt, with integer percentage
completedCount divided by totalCount times one hundred where completedCount
counts attempts including failed ones, the loop proceeds, the job ends with
the success terminal event, and the event trace does not depend on which
copy attempts succeed. -/
theorem C7_copy_failure_tolerated (env : Env) (g : Nat → Bool)
    (hsrc : env.sourceExists = true)
    (hrun : ∀ j, env.runningAt j = true)
    (hne : selectedFiles env ≠ []) :
    (run env).events =
      Event.progress 0 "正在扫描文件..." ::
        (progressEvents (selectedFiles env).length 0 (selectedFiles env) ++
          [Event.finished true "数据迁移成功！"]) ∧
    (run env).copies = attemptsFrom env.copyOk 0 (selectedFiles env) ∧
    (progressEvents (selectedFiles env).length 0 (selectedFiles env)).length =
      (selectedFiles env).length ∧
    (run { env with copyOk := g }).events = (run env).events := by
  have hmain := run_normal env hsrc hne
  have hloop := copyLoop_of_running env.runningAt env.copyOk
      (selectedFiles env).length (selectedFiles env) 0 hrun
  have hmain2 := run_normal { env with copyOk := g } hsrc hne
  have hloop2 := copyLoop_of_running env.runningAt g
      (selectedFiles env).length (selectedFiles env) 0 hrun
  refine ⟨?_, ?_, progressEvents_length _ _ _, ?_⟩
  · rw [hmain]
    show Event.progress 0 "正在扫描文件..." ::
        ((copyLoop env.runningAt env.copyOk (selectedFiles env).length 0
            (selectedFiles env)).1 ++ [Event.finished true "数据迁移成功！"]) =
      Event.progress 0 "正在扫描文件..." ::
        (progressEvents (selectedFiles env).length 0 (selectedFiles env) ++
          [Event.finished true "数据迁移成功！"])
    rw [hloop]
  · rw [hmain]
    show (copyLoop env.runningAt env.copyOk (selectedFiles env).length 0
        (selectedFiles env)).2 = attemptsFrom env.copyOk 0 (selectedFiles env)
    rw [hloop]
  · rw [hmain2, hmain]
    show Event.progress 0 "正在扫描文件..." ::
        ((copyLoop env.runningAt g (selectedFiles env).length 0
            (selectedFiles env)).1 ++ [Event.finished true "数据迁移成功！"]) =
      Event.progress 0 "正在扫描文件..." ::
        ((copyLoop env.runningAt env.copyOk (selectedFiles env).length 0
            (selectedFiles env)).1 ++ [Event.finished true "数据迁移成功！"])
    rw [copyLoop_events_indep env.runningAt (selectedFiles env).length g env.copyOk
        (selectedFiles env) 0]

theorem C7_copy_failure_tolerated_witness :
    envSampleE.sourceExists = true ∧
    (∀ j, envSampleE.runningAt j = true) ∧
    selectedFiles envSampleE ≠ [] ∧
    ((run envSampleE).events =
      Event.progress 0 "正在扫描文件..." ::
        (progressEvents (selectedFiles envSampleE).length 0
            (selectedFiles envSampleE) ++
          [Event.finished true "数据迁移成功！"]) ∧
     (run envSampleE).copies =
       attemptsFrom envSampleE.copyOk 0 (selectedFiles envSampleE) ∧
     (progressEvents (selectedFiles envSampleE).length 0
         (selectedFiles envSampleE)).length =
       (selectedFiles envSampleE).length ∧
     (run { envSampleE with copyOk := fun _ => true }).events =
       (run envSampleE).events) :=
  ⟨rfl, fun _ => rfl, by decide,
   C7_copy_failure_tolerated envSampleE (fun _ => true) rfl (fun _ => rfl)
     (by decide)⟩

/-- Claim C8: the running flag is checked only at the top of each per-file
iteration: when it is true for every iteration before k and false at the
check of iteration k, no file at position k or later is copied and no
progress event is emitted for them, yet the job still ends with the success
terminal event and never a failure event. -/
theorem C8_cancellation (env : Env) (k : Nat)
    (hsrc : env.sourceExists = true)
    (hbefore : ∀ j, j < k → env.runningAt j = true)
    (hstop : env.runningAt k = false)
    (hne : selectedFiles env ≠ []) :
    (run env).events =
      Event.progress 0 "正在扫描文件..." ::
        (progressEvents (selectedFiles env).length 0
            ((selectedFiles env).take k) ++
          [Event.finished true "数据迁移成功！"]) ∧
    (run env).copies = attemptsFrom env.copyOk 0 ((selectedFiles env).take k) := by
  have hmain := run_normal env hsrc hne
  have hb0 : ∀ j, j < k → env.runningAt (0 + j) = true := by
    intro j hj
    simpa using hbefore j hj
  have hs0 : env.runningAt (0 + k) = false := by simpa using hstop
  have hloop := copyLoop_stopped env.runningAt env.copyOk
      (selectedFiles env).length k (selectedFiles env) 0 hb0 hs0
  constructor
  · rw [hmain]
    show Event.progress 0 "正在扫描文件..." ::
        ((copyLoop env.runningAt env.copyOk (selectedFiles env).length 0
            (selectedFiles env)).1 ++ [Event.finished true "数据迁移成功！"]) =
      Event.progress 0 "正在扫描文件..." ::
        (progressEvents (selectedFiles env).length 0
            ((selectedFiles env).take k) ++
          [Event.finished true "数据迁移成功！"])
    rw [hloop]
  · rw [hmain]
    show (copyLoop env.runningAt env.copyOk (selectedFiles env).length 0
        (selectedFiles env)).2 =
      attemptsFrom env.copyOk 0 ((selectedFiles env).take k)
    rw [hloop]

theorem C8_cancellation_witness :
    envSampleD.sourceExists = true ∧
    (∀ j, j < 1 → envSampleD.runningAt j = true) ∧
    envSampleD.runningAt 1 = false ∧
    selectedFiles envSampleD ≠ [] ∧
    ((run envSampleD).events =
      Event.progress 0 "正在扫描文件..." ::
        (progressEvents (selectedFiles envSampleD).length 0
            ((selectedFiles envSampleD).take 1) ++
          [Event.finished true "数据迁移成功！"]) ∧
     (run envSampleD).copies =
       attemptsFrom envSampleD.copyOk 0 ((selectedFiles envSampleD).take 1)) :=
  ⟨rfl, by decide, rfl, by decide,
   C8_cancellation envSampleD 1 rfl (by decide) rfl (by decide)⟩

theorem copyLoopExc_events_no_finished (running copyOk : Nat → Bool)
    (emitExc : Nat → Option String) (total : Nat) :
    ∀ (fs : List String) (i : Nat),
      ((copyLoopExc running copyOk emitExc total i fs).events.countP
        (fun e => isFinishedEvent e)) = 0 := by
  intro fs
  induction fs with
  | nil => intro i; rfl
  | cons f rest ih =>
    intro i
    by_cases hr : running i = true
    · cases he : emitExc i with
      | some msg => simp [copyLoopExc, hr, he]
      | none =>
        have hstep : (copyLoopExc running copyOk emitExc total i (f :: rest)).events =
            Event.progress (int_pct (i + 1) total) ("正在迁移: " ++ f) ::
              (copyLoopExc running copyOk emitExc total (i + 1) rest).events := by
          simp [copyLoopExc, hr, he]
        rw [hstep, List.countP_cons, ih (i + 1)]
        rfl
    · simp only [Bool.not_eq_true] at hr
      simp [copyLoopExc, hr]

theorem copyLoopExc_no_inj (running copyOk : Nat → Bool) (total : Nat) :
    ∀ (fs : List String) (i : Nat),
      copyLoopExc running copyOk (fun _ => none) total i fs =
        { events := (copyLoop running copyOk total i fs).1,
          copies := (copyLoop running copyOk total i fs).2,
          exc := none } := by
  intro fs
  induction fs with
  | nil => intro i; rfl
  | cons f rest ih =>
    intro i
    by_cases hr : running i = true
    · simp [copyLoopExc, copyLoop, hr, ih (i + 1)]
    · simp only [Bool.not_eq_true] at hr
      simp [copyLoopExc, copyLoop, hr]

theorem runX_no_inj (env : Env) :
    runX { env := env, parseExc := none, scanExc := none,
           emitExc := fun _ => none } = run env := by
  by_cases hsrc : env.sourceExists = true
  · by_cases hlen : (scan_files env.walk
        (parse_rules env.context env.ruleFileContent)).length = 0
    · simp only [runX, run, hsrc, if_true, hlen, if_pos]
    · have hcl := copyLoopExc_no_inj env.runningAt env.copyOk
          (scan_files env.walk (parse_rules env.context env.ruleFileContent)).length
          (scan_files env.walk (parse_rules env.context env.ruleFileContent)) 0
      simp only [runX, run, hsrc, if_true, if_neg hlen]
      rw [hcl]
  · have hf : env.sourceExists = false := by simpa using hsrc
    simp [runX, run, hf]

/-- Claim C9: on every execution path of run — missing source, rule-parse
error (a rule-file read failure raised inside parse_rules), zero files
selected, normal completion, early stop on cancellation, and any unexpected
exception escaping during scan/parse/copy (injected through the
exception-extended environment at the try-block's uncaught raise sites and
caught by the outer handler) — the finished event is emitted exactly once and
it is the last event of the job: no progress event follows it.  The extended
model is conservative: with no injected exception it coincides with run on
every environment, so the property covers every path of run as well. -/
theorem C9_finished_exactly_once (x : EnvX) :
    ((runX x).events.countP (fun e => isFinishedEvent e) = 1) ∧
    (∃ s m, (runX x).events.getLast? = some (Event.finished s m)) ∧
    (∀ env : Env,
      runX { env := env, parseExc := none, scanExc := none,
             emitExc := fun _ => none } = run env) := by
  have hshape : ∃ (pre : List Event) (s : Bool) (m : String),
      (runX x).events = pre ++ [Event.finished s m] ∧
      pre.countP (fun e => isFinishedEvent e) = 0 := by
    by_cases hsrc : x.env.sourceExists = true
    · cases hpe : x.parseExc with
      | some msg =>
        refine ⟨[], false, "迁移失败: " ++ msg, ?_, rfl⟩
        simp [runX, hsrc, hpe]
      | none =>
        cases hse : x.scanExc with
        | some msg =>
          refine ⟨[Event.progress 0 "正在扫描文件..."], false,
            "迁移失败: " ++ msg, ?_, by decide⟩
          simp [runX, hsrc, hpe, hse]
        | none =>
          by_cases hlen : (scan_files x.env.walk
              (parse_rules x.env.context x.env.ruleFileContent)).length = 0
          · refine ⟨[Event.progress 0 "正在扫描文件..."], true,
              "没有发现需要迁移的文件。", ?_, by decide⟩
            simp [runX, hsrc, hpe, hse, hlen]
          · cases hexc : (copyLoopExc x.env.runningAt x.env.copyOk x.emitExc
                (scan_files x.env.walk
                  (parse_rules x.env.context x.env.ruleFileContent)).length
                0 (scan_files x.env.walk
                  (parse_rules x.env.context x.env.ruleFileContent))).exc with
            | some msg =>
              refine ⟨Event.progress 0 "正在扫描文件..." ::
                  (copyLoopExc x.env.runningAt x.env.copyOk x.emitExc
                    (scan_files x.env.walk
                      (parse_rules x.env.context x.env.ruleFileContent)).length
                    0 (scan_files x.env.walk
                      (parse_rules x.env.context x.env.ruleFileContent))).events,
                false, "迁移失败: " ++ msg, ?_, ?_⟩
              · simp only [runX, hsrc, if_true, hpe, hse, if_neg hlen, hexc]
                simp
              · rw [List.countP_cons, copyLoopExc_events_no_finished]
                rfl
            | none =>
              refine ⟨Event.progress 0 "正在扫描文件..." ::
                  (copyLoopExc x.env.runningAt x.env.copyOk x.emitExc
                    (scan_files x.env.walk
                      (parse_rules x.env.context x.env.ruleFileContent)).length
                    0 (scan_files x.env.walk
                      (parse_rules x.env.context x.env.ruleFileContent))).events,
                true, "数据迁移成功！", ?_, ?_⟩
              · simp only [runX, hsrc, if_true, hpe, hse, if_neg hlen, hexc]
                simp
              · rw [List.countP_cons, copyLoopExc_events_no_finished]
                rfl
    · have hf : x.env.sourceExists = false := by simpa using hsrc
      refine ⟨[], false,
        "迁移失败: Source path does not exist: " ++ x.env.from_path, ?_, rfl⟩
      simp [runX, hf]
  obtain ⟨pre, s, m, hev, hpre⟩ := hshape
  refine ⟨?_, ⟨s, m, ?_⟩, runX_no_inj⟩
  · rw [hev, List.countP_append, hpre]
    rfl
  · rw [hev, List.getLast?_concat]
